import Mathlib

set_option maxRecDepth 10000

/-!
Verification of the matchr regular-expression match enumerator
(`matchr.py`).

The program walks a parsed SRE syntax tree (the output of the external
parser `sre_parse.parse`, which is out of scope per the specification) and
enumerates every string the pattern can match, under a cap `max_repeat` on
repetition counts.  The core is three functions:

* `_generate` (matchr.py lines 80-156): turns a node sequence into a list
  of "match sets", each an ordered collection of candidate strings for one
  concatenation slot;
* `_combine` (lines 68-78): cartesian product of the match sets, joined
  into full strings;
* `generate` (lines 14-34): drives `_combine` and strips duplicates,
  keeping the first occurrence of each string.

Python byte strings are modelled as lists of byte values (`Str`); the
parse tree is the mutually inductive `SreNode`/`SreSeq`/`SreSeqs` family,
mirroring the `(opcode, args)` tuples of `sre_parse`.  Node sequences and
branch lists are their own inductive types (rather than `List SreNode`)
solely so that the mutual recursion below is structural and hence computes
inside the kernel; they are isomorphic to lists.
-/

/-- A Python byte string, as its list of byte values. -/
abbrev Str := List Nat

/-- One "match set": the ordered candidates for one concatenation slot.
In the source a match set is any iterable of strings (a bare one-character
string such as the `yield chr(args)` of the LITERAL case acts, under
iteration, as the singleton containing itself, and is modelled as such). -/
abbrev MatchSet := List Str

/-! The node shapes emitted by `sre_parse.parse`, as consumed by
`_generate` (matchr.py lines 106-156).  `category` carries the category
name string (the key looked up in `CATEGORIES`); `other` stands for any
`(opcode, args)` pair whose opcode matches none of the handled cases
(for example `at` for anchors or `groupref` for backreferences). -/
mutual
/-- One parsed node: an `(opcode, args)` pair. -/
inductive SreNode where
  | subpattern (ref : Nat) (pat : SreSeq)
  | branch (branches : SreSeqs)
  | literal (c : Nat)
  | not_literal (c : Nat)
  | any
  | range (lo hi : Nat)
  | inClass (items : SreSeq)
  | negate
  | max_repeat (lo hi : Nat) (pat : SreSeq)
  | min_repeat (lo hi : Nat) (pat : SreSeq)
  | category (cat : String)
  | other (opcode : String)

/-- A node sequence (one level of the parsed tree); denotes concatenation. -/
inductive SreSeq where
  | nil
  | cons (n : SreNode) (s : SreSeq)

/-- The list of alternative node sequences of a BRANCH node. -/
inductive SreSeqs where
  | nil
  | cons (s : SreSeq) (l : SreSeqs)
end

/-- matchr.py line 159: `EMPTY = ''`. -/
def EMPTY : Str := []

/-- matchr.py lines 160-161: the working alphabet, every byte value except
the null byte and the two line terminators.  The source keeps it as a
Python `set` and only ever consumes it through `sorted(ALL - excluded)`
and membership; it is modelled as the sorted list of its elements, so that
`sorted(ALL - excluded)` becomes a filter of this list (filtering a sorted
list is sorted, and one-character byte strings sort as their byte values). -/
def ALL : List Nat := (List.range 256).filter (fun c => c != 10 && c != 13 && c != 0)

/-- Python 2 `string.digits`: the character codes of `0123456789`. -/
def string_digits : List Nat := List.range' 48 10

/-- Python 2 `string.whitespace`: tab, newline, vertical tab, form feed,
carriage return, space. -/
def string_whitespace : List Nat := [9, 10, 11, 12, 13, 32]

/-- Python 2 `string.ascii_letters`: the lowercase then the uppercase
ASCII letters. -/
def string_ascii_letters : List Nat := List.range' 97 26 ++ List.range' 65 26

/-- matchr.py lines 162-171: the fixed category tables, keyed by the SRE
category name.  The negated tables are `sorted(ALL - set(table))`, modelled
as a filter of the (sorted) `ALL`.  `none` models a key missing from the
dict (the `cat in CATEGORIES` test at line 147). -/
def CATEGORIES (cat : String) : Option (List Nat) :=
  if cat = "category_digit" then some string_digits
  else if cat = "category_space" then some string_whitespace
  else if cat = "category_word" then some string_ascii_letters
  else if cat = "category_not_digit" then
    some (ALL.filter (fun c => !string_digits.contains c))
  else if cat = "category_not_space" then
    some (ALL.filter (fun c => !string_whitespace.contains c))
  else if cat = "category_not_word" then
    some (ALL.filter (fun c => !string_ascii_letters.contains c))
  else none

/-- `sre_constants.MAXREPEAT` in Python 2: the `high` value a parsed
unbounded repetition (`*`, `+`, `{n,}`) carries. -/
def MAXREPEAT : Nat := 65535

/-- matchr.py lines 37-56: `itertools.product`.  The leftmost input set
varies slowest, the rightmost fastest, exactly as in the source. -/
def product : List MatchSet → List (List Str)
  | [] => [[]]
  | s :: rest => s.flatMap (fun x => (product rest).map (fun t => x :: t))

/-! matchr.py lines 80-156, `_generate`: turn a node sequence into the list
of match sets it yields, or the message of the `NotImplementedError` it
raises.  The generator is always driven to exhaustion by its one consumer
(`unpack` inside `_combine` is eager), so a raised error is modelled as the
whole call failing, and the yields as the returned list.  The recursive
uses of `_combine` in the source (`c(pat)` at lines 110, 114, 139) are
inlined as `(product ms).map List.flatten`, which is the body of
`_combine`; see `_combine_def` below. -/
mutual

/-- The walk over a node sequence: concatenation of per-node yields. -/
def _generate : SreSeq → Nat → Except String (List MatchSet)
  | .nil, _ => .ok []
  | .cons n rest, b => do
      let s ← genNode n b
      let r ← _generate rest b
      .ok (s ++ r)

/-- The dispatch on one `(opcode, args)` node inside the `for` loop of
`_generate` (matchr.py lines 106-156); the yields of one loop iteration. -/
def genNode : SreNode → Nat → Except String (List MatchSet)
  | .subpattern _ pat, b => do
      let ms ← _generate pat b
      .ok [(product ms).map List.flatten]
  | .branch bs, b => do
      let parts ← genBranches bs b
      .ok [parts.flatten]
  | .literal c, _ => .ok [[[c]]]
  | .not_literal c, _ => .ok [(ALL.filter (fun x => x != c)).map (fun x => [x])]
  | .any, _ => .ok [ALL.map (fun x => [x])]
  | .range lo hi, _ => .ok [(List.range' lo (hi + 1 - lo)).map (fun x => [x])]
  | .inClass (.cons .negate rest), b => do
      let ms ← _generate rest b
      .ok [(ALL.filter (fun c => !(ms.flatten).contains [c])).map (fun c => [c])]
  | .inClass items, b => do
      let ms ← _generate items b
      .ok [ms.flatten]
  | .negate, _ => .error "opcode negate"
  | .max_repeat lo hi pat, b => do
      let ms ← _generate pat b
      let childMatches := (product ms).map List.flatten
      .ok (List.replicate lo childMatches ++
        List.replicate (min b hi - lo) (EMPTY :: childMatches))
  | .min_repeat lo hi pat, b => do
      let ms ← _generate pat b
      let childMatches := (product ms).map List.flatten
      .ok (List.replicate lo childMatches ++
        List.replicate (min b hi - lo) (EMPTY :: childMatches))
  | .category cat, _ =>
      match CATEGORIES cat with
      | some chars => .ok (chars.map (fun c => [[c]]))
      | none => .error ("category " ++ cat)
  | .other opcode, _ => .error ("opcode " ++ opcode)

/-- The `map(c, branches)` of the BRANCH case (matchr.py line 114). -/
def genBranches : SreSeqs → Nat → Except String (List (List Str))
  | .nil, _ => .ok []
  | .cons p ps, b => do
      let m ← _generate p b
      let r ← genBranches ps b
      .ok ((product m).map List.flatten :: r)

end

/-- matchr.py lines 68-78, `_combine`: cartesian product of the match sets
of a node sequence, each tuple joined into one string. -/
def _combine (pat : SreSeq) (b : Nat) : Except String (List Str) := do
  let ms ← _generate pat b
  .ok ((product ms).map List.flatten)

/-- The `had` loop of `generate` (matchr.py lines 30-34): keep each string
the first time it appears, against the accumulated set `seen`. -/
def dedup (seen : List Str) : List Str → List Str
  | [] => []
  | s :: rest => if s ∈ seen then dedup seen rest else s :: dedup (s :: seen) rest

/-- matchr.py lines 14-34, `generate`: the public interface.  Parsing the
pattern text (`sre_parse.parse` at line 27) is the external collaborator
of the specification, so the function takes the parsed tree. -/
def generate (pat : SreSeq) (b : Nat) : Except String (List Str) := do
  let ms ← _combine pat b
  .ok (dedup [] ms)

/-- Sanity: `_combine` is the bind that the inlined occurrences in
`genNode` replicate. -/
theorem _combine_def (pat : SreSeq) (b : Nat) :
    _combine pat b =
      _generate pat b >>= (fun ms => Except.ok ((product ms).map List.flatten)) := rfl

instance : DecidableEq (Except String (List Str)) := fun a b =>
  match a, b with
  | .ok x, .ok y =>
      if h : x = y then isTrue (by rw [h]) else isFalse (fun hc => h (by injection hc))
  | .error x, .error y =>
      if h : x = y then isTrue (by rw [h]) else isFalse (fun hc => h (by injection hc))
  | .ok _, .error _ => isFalse (fun hc => by injection hc)
  | .error _, .ok _ => isFalse (fun hc => by injection hc)

/-! Concrete parse trees used by the claims, written exactly as
`sre_parse.parse` emits them. -/

/-- The tree of the pattern `a{0,N}`:
`[('max_repeat', (0, N, [('literal', 97)]))]`. -/
def aRepeatTree (lo hi : Nat) : SreSeq :=
  .cons (.max_repeat lo hi (.cons (.literal 97) .nil)) .nil

/-- The tree of the pattern `a*`:
`[('max_repeat', (0, MAXREPEAT, [('literal', 97)]))]`. -/
def aStarTree : SreSeq := aRepeatTree 0 MAXREPEAT

/-- The tree of the pattern `\d`:
`[('in', [('category', 'category_digit')])]`. -/
def digitClassTree : SreSeq :=
  .cons (.inClass (.cons (.category "category_digit") .nil)) .nil

/-- The tree of the pattern `[^a]`:
`[('in', [('negate', None), ('literal', 97)])]`. -/
def negClassTree : SreSeq :=
  .cons (.inClass (.cons .negate (.cons (.literal 97) .nil))) .nil

/-! Properties of the deduplicating driver loop. -/

theorem mem_dedup (s : Str) (xs : List Str) :
    ∀ seen : List Str, s ∈ dedup seen xs ↔ s ∈ xs ∧ s ∉ seen := by
  induction xs with
  | nil => intro seen; simp [dedup]
  | cons x rest ih =>
      intro seen
      simp only [dedup]
      by_cases hx : x ∈ seen
      · rw [if_pos hx, ih seen]
        constructor
        · rintro ⟨h1, h2⟩; exact ⟨List.mem_cons_of_mem _ h1, h2⟩
        · rintro ⟨h1, h2⟩
          rcases List.mem_cons.mp h1 with rfl | h1
          · exact absurd hx h2
          · exact ⟨h1, h2⟩
      · rw [if_neg hx, List.mem_cons, ih (x :: seen)]
        constructor
        · rintro (rfl | ⟨h1, h2⟩)
          · exact ⟨List.mem_cons_self _ _, hx⟩
          · exact ⟨List.mem_cons_of_mem _ h1,
              fun hs => h2 (List.mem_cons_of_mem _ hs)⟩
        · rintro ⟨h1, h2⟩
          rcases List.mem_cons.mp h1 with rfl | h1
          · exact Or.inl rfl
          · by_cases hsx : s = x
            · exact Or.inl hsx
            · exact Or.inr ⟨h1, by simp [List.mem_cons, hsx, h2]⟩

theorem nodup_dedup (xs : List Str) : ∀ seen : List Str, (dedup seen xs).Nodup := by
  induction xs with
  | nil => intro seen; simp [dedup]
  | cons x rest ih =>
      intro seen
      simp only [dedup]
      by_cases hx : x ∈ seen
      · rw [if_pos hx]; exact ih seen
      · rw [if_neg hx]
        refine List.nodup_cons.mpr ⟨fun hmem => ?_, ih _⟩
        exact ((mem_dedup x rest (x :: seen)).mp hmem).2 (List.mem_cons_self _ _)

theorem sublist_dedup (xs : List Str) : ∀ seen : List Str, (dedup seen xs).Sublist xs := by
  induction xs with
  | nil => intro seen; simp [dedup]
  | cons x rest ih =>
      intro seen
      simp only [dedup]
      by_cases hx : x ∈ seen
      · rw [if_pos hx]; exact (ih seen).cons x
      · rw [if_neg hx]; exact (ih (x :: seen)).cons₂ x

theorem str_indexOf_cons (a b : Str) (l : List Str) :
    (b :: l).indexOf a = if b = a then 0 else l.indexOf a + 1 := by
  simp only [List.indexOf, List.findIdx_cons]
  by_cases h : b = a
  · simp [h]
  · have hb : (b == a) = false := beq_eq_false_iff_ne.mpr h
    simp [hb, h]

theorem indexOf_dedup (xs : List Str) :
    ∀ (seen : List Str) (x y : Str), x ∉ seen → y ∉ seen → x ∈ xs → y ∈ xs →
      ((dedup seen xs).indexOf x ≤ (dedup seen xs).indexOf y ↔
        xs.indexOf x ≤ xs.indexOf y) := by
  induction xs with
  | nil => intro seen x y _ _ hx _; exact absurd hx (List.not_mem_nil x)
  | cons z rest ih =>
      intro seen x y hxs hys hxm hym
      simp only [dedup]
      by_cases hz : z ∈ seen
      · rw [if_pos hz]
        simp only [str_indexOf_cons]
        have hxz : ¬ z = x := fun h => hxs (h ▸ hz)
        have hyz : ¬ z = y := fun h => hys (h ▸ hz)
        have hxr : x ∈ rest := by
          rcases List.mem_cons.mp hxm with rfl | h
          · exact absurd hz hxs
          · exact h
        have hyr : y ∈ rest := by
          rcases List.mem_cons.mp hym with rfl | h
          · exact absurd hz hys
          · exact h
        rw [if_neg hxz, if_neg hyz, Nat.add_le_add_iff_right]
        exact ih seen x y hxs hys hxr hyr
      · rw [if_neg hz]
        simp only [str_indexOf_cons]
        by_cases hzx : z = x
        · rw [if_pos hzx, if_pos hzx]
          simp
        · rw [if_neg hzx, if_neg hzx]
          have hxr : x ∈ rest := by
            rcases List.mem_cons.mp hxm with rfl | h
            · exact absurd rfl hzx
            · exact h
          by_cases hzy : z = y
          · rw [if_pos hzy, if_pos hzy]
            omega
          · rw [if_neg hzy, if_neg hzy, Nat.add_le_add_iff_right,
              Nat.add_le_add_iff_right]
            have hyr : y ∈ rest := by
              rcases List.mem_cons.mp hym with rfl | h
              · exact absurd rfl hzy
              · exact h
            refine ih (z :: seen) x y ?_ ?_ hxr hyr
            · intro h
              rcases List.mem_cons.mp h with rfl | h2
              · exact hzx rfl
              · exact hxs h2
            · intro h
              rcases List.mem_cons.mp h with rfl | h2
              · exact hzy rfl
              · exact hys h2

/-- C3: for every pattern, bound and alphabet configuration, `generate`
yields each string of the raw enumeration exactly once (no duplicates),
as a subsequence of the raw enumeration, and in the order of the strings'
first occurrences there (positions compare in `generate`'s output exactly
as the first-occurrence positions compare in the raw enumeration). -/
theorem generate_unique_first_seen (pat : SreSeq) (b : Nat) (raw : List Str)
    (h : _combine pat b = Except.ok raw) :
    ∃ l, generate pat b = Except.ok l ∧ l.Nodup ∧ l.Sublist raw ∧
      (∀ s, s ∈ l ↔ s ∈ raw) ∧
      ∀ x y, x ∈ l → y ∈ l →
        (l.indexOf x ≤ l.indexOf y ↔ raw.indexOf x ≤ raw.indexOf y) := by
  refine ⟨dedup [] raw, ?_, nodup_dedup raw [], sublist_dedup raw [], ?_, ?_⟩
  · unfold generate
    rw [h]
    rfl
  · intro s
    rw [mem_dedup]
    simp
  · intro x y hx hy
    exact indexOf_dedup raw [] x y (List.not_mem_nil x) (List.not_mem_nil y)
      ((mem_dedup x raw []).mp hx).1 ((mem_dedup y raw []).mp hy).1

/-- The tree of the pattern `a?a?`:
`[('max_repeat', (0, 1, [('literal', 97)])), ('max_repeat', (0, 1, [('literal', 97)]))]`. -/
def optTwiceTree : SreSeq :=
  .cons (.max_repeat 0 1 (.cons (.literal 97) .nil))
    (.cons (.max_repeat 0 1 (.cons (.literal 97) .nil)) .nil)

theorem generate_unique_first_seen_witness :
    _combine optTwiceTree 3 = Except.ok [[], [97], [97], [97, 97]] ∧
    ∃ l, generate optTwiceTree 3 = Except.ok l ∧ l.Nodup ∧
      l.Sublist [[], [97], [97], [97, 97]] ∧
      (∀ s, s ∈ l ↔ s ∈ [[], [97], [97], [97, 97]]) ∧
      ∀ x y, x ∈ l → y ∈ l →
        (l.indexOf x ≤ l.indexOf y ↔
          ([[], [97], [97], [97, 97]] : List Str).indexOf x ≤
            ([[], [97], [97], [97, 97]] : List Str).indexOf y) :=
  ⟨rfl, generate_unique_first_seen optTwiceTree 3 [[], [97], [97], [97, 97]] rfl⟩

/-- C10: the empty pattern parses to the empty node sequence; the cartesian
product of zero match sets is the single empty tuple, so `generate` yields
exactly one string, the empty string. -/
theorem empty_pattern_empty_string :
    product [] = [[]] ∧ ∀ b, generate SreSeq.nil b = Except.ok [EMPTY] :=
  ⟨rfl, fun _ => rfl⟩

/-- C8: `generate` is deterministic: for a fixed tree, bound and alphabet,
two calls yield identical sequences (the embedding is a pure function of
the tree and the bound; the Python `generate` re-parses its pattern
argument on every call, so both calls see the same tree). -/
theorem generate_deterministic (pat : SreSeq) (b : Nat)
    (r1 r2 : Except String (List Str))
    (h1 : generate pat b = r1) (h2 : generate pat b = r2) : r1 = r2 :=
  h1 ▸ h2 ▸ rfl

theorem generate_deterministic_witness :
    (Except.ok [[], [97], [97, 97], [97, 97, 97]] : Except String (List Str)) =
      Except.ok [[], [97], [97, 97], [97, 97, 97]] :=
  generate_deterministic aStarTree 3 _ _ rfl rfl

/-! The MAX_REPEAT/MIN_REPEAT case of `_generate` (matchr.py lines 136-143). -/

theorem _combine_ok_elim (pat : SreSeq) (b : Nat) (m : List Str)
    (h : _combine pat b = Except.ok m) :
    ∃ ms, _generate pat b = Except.ok ms ∧ (product ms).map List.flatten = m := by
  unfold _combine at h
  cases hg : _generate pat b with
  | error e =>
      rw [hg] at h
      have h2 : (Except.error e : Except String (List Str)) = Except.ok m := h
      exact Except.noConfusion h2
  | ok ms =>
      rw [hg] at h
      have h2 : Except.ok ((product ms).map List.flatten) = Except.ok m := h
      exact ⟨ms, rfl, by injection h2⟩

/-- C1: a Repeat node caps the effective high at `min(bound, declared
high)` and then yields exactly `low` forced copies of the child's full
language, followed by `effective_high - low` slots each offering the
choice of the empty string or any member of the child's language; for the
pattern `a{0,2}` and any bound of at least 2 the generated set is exactly
the empty string, `a`, `aa`. -/
theorem repeat_slot_semantics :
    (∀ lo hi pat b m, _combine pat b = Except.ok m →
      genNode (.max_repeat lo hi pat) b =
        Except.ok (List.replicate lo m ++
          List.replicate (min b hi - lo) (EMPTY :: m))) ∧
    ∀ b, 2 ≤ b → generate (aRepeatTree 0 2) b = Except.ok [[], [97], [97, 97]] := by
  constructor
  · intro lo hi pat b m h
    obtain ⟨ms, hg, hm⟩ := _combine_ok_elim pat b m h
    have e1 : genNode (.max_repeat lo hi pat) b =
        _generate pat b >>= (fun ms => Except.ok
          (List.replicate lo ((product ms).map List.flatten) ++
            List.replicate (min b hi - lo)
              (EMPTY :: (product ms).map List.flatten))) := rfl
    rw [e1, hg]
    show Except.ok _ = Except.ok _
    rw [hm]
  · intro b hb
    have hmin : min b 2 = 2 := Nat.min_eq_right hb
    have e1 : generate (aRepeatTree 0 2) b =
        Except.ok (dedup []
          ((product (List.replicate (min b 2) (EMPTY :: [[97]]) ++ [])).map
            List.flatten)) := rfl
    rw [e1, hmin]
    rfl

theorem repeat_slot_semantics_witness :
    (_combine (.cons (.literal 97) .nil) 2 = Except.ok [[97]] ∧
      genNode (.max_repeat 0 2 (.cons (.literal 97) .nil)) 2 =
        Except.ok (List.replicate 0 [[97]] ++
          List.replicate (min 2 2 - 0) (EMPTY :: [[97]]))) ∧
    (2 ≤ 2 ∧ generate (aRepeatTree 0 2) 2 = Except.ok [[], [97], [97, 97]]) :=
  ⟨⟨rfl, repeat_slot_semantics.1 0 2 _ 2 _ rfl⟩,
    ⟨Nat.le_refl 2, repeat_slot_semantics.2 2 (Nat.le_refl 2)⟩⟩

/-- C9: when the bound is smaller than a Repeat node's declared minimum,
the `low` forced copies are still all emitted (the cap only shrinks the
count of optional slots, `min(bound, high) - low`, to zero), so `generate`
yields strings strictly longer than the bound: `a{2,5}` at bound 1 yields
exactly `aa`, of length 2. -/
theorem forced_copies_exceed_bound :
    (∀ lo hi pat b m, b < lo → _combine pat b = Except.ok m →
      genNode (.max_repeat lo hi pat) b = Except.ok (List.replicate lo m)) ∧
    generate (aRepeatTree 2 5) 1 = Except.ok [[97, 97]] := by
  constructor
  · intro lo hi pat b m hb h
    obtain ⟨ms, hg, hm⟩ := _combine_ok_elim pat b m h
    have e1 : genNode (.max_repeat lo hi pat) b =
        _generate pat b >>= (fun ms => Except.ok
          (List.replicate lo ((product ms).map List.flatten) ++
            List.replicate (min b hi - lo)
              (EMPTY :: (product ms).map List.flatten))) := rfl
    have hz : min b hi - lo = 0 :=
      Nat.sub_eq_zero_of_le (le_of_lt (lt_of_le_of_lt (Nat.min_le_left b hi) hb))
    rw [e1, hg]
    show Except.ok _ = Except.ok _
    rw [hm, hz, List.replicate_zero, List.append_nil]
  · rfl

theorem forced_copies_exceed_bound_witness :
    ((1 < 2 ∧ _combine (.cons (.literal 97) .nil) 1 = Except.ok [[97]]) ∧
      genNode (.max_repeat 2 5 (.cons (.literal 97) .nil)) 1 =
        Except.ok (List.replicate 2 [[97]])) ∧
    generate (aRepeatTree 2 5) 1 = Except.ok [[97, 97]] :=
  ⟨⟨⟨Nat.one_lt_two, rfl⟩,
    forced_copies_exceed_bound.1 2 5 _ 1 _ Nat.one_lt_two rfl⟩,
    forced_copies_exceed_bound.2⟩

/-! Error behaviour: which trees make the enumeration raise
`NotImplementedError` (matchr.py lines 151 and 156).  A bare NEGATE marker
outside the head position of a class falls through to the final `else`
like any other unhandled opcode. -/

mutual

/-- Whether a node contains a construct the engine does not model: an
opcode matching no handled case, or a CATEGORY whose name is missing from
the `CATEGORIES` table. -/
def badNode : SreNode → Bool
  | .subpattern _ pat => badSeq pat
  | .branch bs => badSeqs bs
  | .literal _ => false
  | .not_literal _ => false
  | .any => false
  | .range _ _ => false
  | .inClass (.cons .negate rest) => badSeq rest
  | .inClass items => badSeq items
  | .negate => true
  | .max_repeat _ _ pat => badSeq pat
  | .min_repeat _ _ pat => badSeq pat
  | .category cat => (CATEGORIES cat).isNone
  | .other _ => true

/-- A node sequence is bad when any of its nodes is. -/
def badSeq : SreSeq → Bool
  | .nil => false
  | .cons n s => badNode n || badSeq s

/-- A branch list is bad when any alternative is. -/
def badSeqs : SreSeqs → Bool
  | .nil => false
  | .cons s l => badSeq s || badSeqs l

end

theorem exists_ok_bind_iff {α β : Type} (x : Except String α)
    (f : α → Except String β) (hf : ∀ a, ∃ r, f a = Except.ok r) :
    (∃ l, (x >>= f) = Except.ok l) ↔ ∃ a, x = Except.ok a := by
  cases x with
  | error e =>
      constructor
      · rintro ⟨l, hl⟩
        exact Except.noConfusion (show Except.error e = Except.ok l from hl)
      · rintro ⟨a, ha⟩
        exact Except.noConfusion ha
  | ok a =>
      constructor
      · intro _; exact ⟨a, rfl⟩
      · intro _
        obtain ⟨r, hr⟩ := hf a
        exact ⟨r, show f a = Except.ok r from hr⟩

theorem exists_ok_bind2_iff {α β γ : Type} (x : Except String α)
    (y : Except String β) (g : α → β → Except String γ)
    (hg : ∀ a r, ∃ v, g a r = Except.ok v) :
    (∃ l, (x >>= fun a => y >>= fun r => g a r) = Except.ok l) ↔
      (∃ a, x = Except.ok a) ∧ (∃ r, y = Except.ok r) := by
  cases x with
  | error e =>
      constructor
      · rintro ⟨l, hl⟩
        exact Except.noConfusion (show Except.error e = Except.ok l from hl)
      · rintro ⟨⟨a, ha⟩, _⟩
        exact Except.noConfusion ha
  | ok a =>
      cases y with
      | error e =>
          constructor
          · rintro ⟨l, hl⟩
            exact Except.noConfusion (show Except.error e = Except.ok l from hl)
          · rintro ⟨_, ⟨r, hr⟩⟩
            exact Except.noConfusion hr
      | ok r =>
          constructor
          · intro _; exact ⟨⟨a, rfl⟩, ⟨r, rfl⟩⟩
          · intro _
            obtain ⟨v, hv⟩ := hg a r
            exact ⟨v, show g a r = Except.ok v from hv⟩

/-- The dispatch of `genNode` on a class whose item list does not start
with the NEGATE marker (the `else` at matchr.py line 133). -/
theorem genNode_inClass_not_negate (items : SreSeq) (b : Nat)
    (h : ∀ rest, items ≠ SreSeq.cons SreNode.negate rest) :
    genNode (.inClass items) b =
      _generate items b >>= fun ms => Except.ok [ms.flatten] := by
  cases items with
  | nil => rfl
  | cons n rest => cases n <;> first | (exact absurd rfl (h rest)) | rfl

/-- `badNode` on a class whose item list does not start with NEGATE. -/
theorem badNode_inClass_not_negate (items : SreSeq)
    (h : ∀ rest, items ≠ SreSeq.cons SreNode.negate rest) :
    badNode (.inClass items) = badSeq items := by
  cases items with
  | nil => rfl
  | cons n rest => cases n <;> first | (exact absurd rfl (h rest)) | rfl

mutual

theorem _generate_ok_iff : ∀ (s : SreSeq) (b : Nat),
    (∃ l, _generate s b = Except.ok l) ↔ badSeq s = false
  | .nil, _ => ⟨fun _ => rfl, fun _ => ⟨[], rfl⟩⟩
  | .cons n rest, b =>
      (exists_ok_bind2_iff (genNode n b) (_generate rest b) _
        (fun a r => ⟨a ++ r, rfl⟩)).trans
        (by rw [genNode_ok_iff n b, _generate_ok_iff rest b]
            exact Bool.or_eq_false_iff.symm)

theorem genNode_ok_iff : ∀ (n : SreNode) (b : Nat),
    (∃ l, genNode n b = Except.ok l) ↔ badNode n = false
  | .subpattern _ pat, b =>
      (exists_ok_bind_iff (_generate pat b) _ (fun a => ⟨_, rfl⟩)).trans
        (_generate_ok_iff pat b)
  | .branch bs, b =>
      (exists_ok_bind_iff (genBranches bs b) _ (fun a => ⟨_, rfl⟩)).trans
        (genBranches_ok_iff bs b)
  | .literal c, _ => ⟨fun _ => rfl, fun _ => ⟨_, rfl⟩⟩
  | .not_literal c, _ => ⟨fun _ => rfl, fun _ => ⟨_, rfl⟩⟩
  | .any, _ => ⟨fun _ => rfl, fun _ => ⟨_, rfl⟩⟩
  | .range lo hi, _ => ⟨fun _ => rfl, fun _ => ⟨_, rfl⟩⟩
  | .inClass items, b => by
      by_cases hneg : ∃ rest, items = SreSeq.cons SreNode.negate rest
      · obtain ⟨rest, rfl⟩ := hneg
        exact (exists_ok_bind_iff (_generate rest b) _
          (fun a => ⟨_, rfl⟩)).trans (_generate_ok_iff rest b)
      · have hne : ∀ rest, items ≠ SreSeq.cons SreNode.negate rest :=
          fun rest h => hneg ⟨rest, h⟩
        rw [genNode_inClass_not_negate items b hne,
          badNode_inClass_not_negate items hne,
          exists_ok_bind_iff (_generate items b) _ (fun a => ⟨_, rfl⟩)]
        exact _generate_ok_iff items b
  | .negate, _ =>
      ⟨fun ⟨l, hl⟩ => Except.noConfusion hl, fun h => Bool.noConfusion h⟩
  | .max_repeat lo hi pat, b =>
      (exists_ok_bind_iff (_generate pat b) _ (fun a => ⟨_, rfl⟩)).trans
        (_generate_ok_iff pat b)
  | .min_repeat lo hi pat, b =>
      (exists_ok_bind_iff (_generate pat b) _ (fun a => ⟨_, rfl⟩)).trans
        (_generate_ok_iff pat b)
  | .category cat, b => by
      simp only [genNode, badNode]
      cases hc : CATEGORIES cat with
      | some chars => simp [hc]
      | none =>
          simp only [hc]
          exact ⟨fun ⟨l, hl⟩ => Except.noConfusion hl,
            fun h => Bool.noConfusion h⟩
  | .other opcode, _ =>
      ⟨fun ⟨l, hl⟩ => Except.noConfusion hl, fun h => Bool.noConfusion h⟩

theorem genBranches_ok_iff : ∀ (l : SreSeqs) (b : Nat),
    (∃ r, genBranches l b = Except.ok r) ↔ badSeqs l = false
  | .nil, _ => ⟨fun _ => rfl, fun _ => ⟨[], rfl⟩⟩
  | .cons p ps, b =>
      (exists_ok_bind2_iff (_generate p b) (genBranches ps b) _
        (fun a r => ⟨_, rfl⟩)).trans
        (by rw [_generate_ok_iff p b, genBranches_ok_iff ps b]
            exact Bool.or_eq_false_iff.symm)

end

theorem _combine_ok_iff (pat : SreSeq) (b : Nat) :
    (∃ l, _combine pat b = Except.ok l) ↔ badSeq pat = false :=
  (exists_ok_bind_iff (_generate pat b) _ (fun a => ⟨_, rfl⟩)).trans
    (_generate_ok_iff pat b)

theorem generate_ok_iff (pat : SreSeq) (b : Nat) :
    (∃ l, generate pat b = Except.ok l) ↔ badSeq pat = false :=
  (exists_ok_bind_iff (_combine pat b) _ (fun a => ⟨_, rfl⟩)).trans
    (_combine_ok_iff pat b)

/-- C6: a tree containing an unrecognized node kind or a category outside
the fixed table makes `generate` fail with the raised error for that call:
no string list is returned at all, so no partial or approximated language
and no silent skipping. -/
theorem unsupported_construct_aborts (pat : SreSeq) (b : Nat)
    (h : badSeq pat = true) : ∃ msg, generate pat b = Except.error msg := by
  cases hg : generate pat b with
  | error e => exact ⟨e, rfl⟩
  | ok l =>
      have := (generate_ok_iff pat b).mp ⟨l, hg⟩
      rw [h] at this
      exact Bool.noConfusion this

/-- The tree of a pattern with an anchor, such as `^a`:
`[('at', 'at_beginning'), ('literal', 97)]`. -/
def anchoredTree : SreSeq := .cons (.other "at") (.cons (.literal 97) .nil)

/-- The tree of the pattern `\d` compiled with the UNICODE flag:
`[('in', [('category', 'category_uni_digit')])]`, whose category name is
missing from the `CATEGORIES` table. -/
def uniDigitTree : SreSeq :=
  .cons (.inClass (.cons (.category "category_uni_digit") .nil)) .nil

theorem unsupported_construct_aborts_witness :
    (badSeq anchoredTree = true ∧
      ∃ msg, generate anchoredTree 3 = Except.error msg) ∧
    (badSeq uniDigitTree = true ∧
      ∃ msg, generate uniDigitTree 3 = Except.error msg) :=
  ⟨⟨rfl, unsupported_construct_aborts anchoredTree 3 rfl⟩,
    ⟨rfl, unsupported_construct_aborts uniDigitTree 3 rfl⟩⟩

/-- C4 (amended): `generate` performs no validation of the repeat bound.
A non-positive bound is accepted like any other: enumeration proceeds and
succeeds on every tree free of unsupported constructs, the bound merely
capping each Repeat node's effective high (at zero optional slots when the
bound is 0); the pattern `a*` with bound 0 yields exactly the empty
string.  No InvalidBound error exists anywhere in the code. -/
theorem no_bound_validation :
    (∀ pat b, badSeq pat = false → ∃ l, generate pat b = Except.ok l) ∧
    generate aStarTree 0 = Except.ok [EMPTY] :=
  ⟨fun pat b h => (generate_ok_iff pat b).mpr h, rfl⟩

theorem no_bound_validation_witness :
    (badSeq aStarTree = false ∧ ∃ l, generate aStarTree 0 = Except.ok l) ∧
    generate aStarTree 0 = Except.ok [EMPTY] :=
  ⟨⟨rfl, no_bound_validation.1 aStarTree 0 rfl⟩, no_bound_validation.2⟩

/-- C4 counterexample: the claim says a call with a non-positive repeat
bound is rejected with an error before enumeration starts and yields no
strings; but `generate` on the tree of `a*` with bound 0 succeeds and
yields the empty string. -/
theorem bound_zero_not_rejected : generate aStarTree 0 = Except.ok [EMPTY] := rfl

/-! The side effects of one completed enumeration pass (matchr.py lines
129-131): on a negated class, `args.pop(0)` removes the NEGATE marker in
place from the item list — a list shared with the caller's tree — and
`print args` writes the popped item list to standard output. -/

mutual

/-- The shape of a node after one completed enumeration pass over it: a
negated class loses its NEGATE marker (the pop at line 130); all children
that the pass consumes are transformed recursively. -/
def nodeAfter : SreNode → SreNode
  | .subpattern r pat => .subpattern r (seqAfter pat)
  | .branch bs => .branch (seqsAfter bs)
  | .literal c => .literal c
  | .not_literal c => .not_literal c
  | .any => .any
  | .range lo hi => .range lo hi
  | .inClass (.cons .negate rest) => .inClass (seqAfter rest)
  | .inClass items => .inClass (seqAfter items)
  | .negate => .negate
  | .max_repeat lo hi pat => .max_repeat lo hi (seqAfter pat)
  | .min_repeat lo hi pat => .min_repeat lo hi (seqAfter pat)
  | .category cat => .category cat
  | .other opcode => .other opcode

/-- A node sequence after one completed enumeration pass. -/
def seqAfter : SreSeq → SreSeq
  | .nil => .nil
  | .cons n s => .cons (nodeAfter n) (seqAfter s)

/-- A branch list after one completed enumeration pass. -/
def seqsAfter : SreSeqs → SreSeqs
  | .nil => .nil
  | .cons s l => .cons (seqAfter s) (seqsAfter l)

end

mutual

/-- Whether one enumeration pass over the node executes the `print args`
statement at matchr.py line 131 (exactly when a negated class occurs). -/
def nodePrints : SreNode → Bool
  | .subpattern _ pat => seqPrints pat
  | .branch bs => seqsPrints bs
  | .literal _ => false
  | .not_literal _ => false
  | .any => false
  | .range _ _ => false
  | .inClass (.cons .negate _) => true
  | .inClass items => seqPrints items
  | .negate => false
  | .max_repeat _ _ pat => seqPrints pat
  | .min_repeat _ _ pat => seqPrints pat
  | .category _ => false
  | .other _ => false

/-- Whether enumerating the node sequence prints to standard output. -/
def seqPrints : SreSeq → Bool
  | .nil => false
  | .cons n s => nodePrints n || seqPrints s

/-- Whether enumerating any alternative prints to standard output. -/
def seqsPrints : SreSeqs → Bool
  | .nil => false
  | .cons s l => seqPrints s || seqsPrints l

end

/-- C5: the claim fails on the code and the spec states the evident
intent, so this is a defect of the code.  Enumerating the tree of `[^a]`
executes the debugging `print` of line 131 (I/O during enumeration),
pops the NEGATE marker out of the input tree (line 130), and a second
enumeration of the same — now mutated — tree sees a non-negated class and
returns the language `a` instead of the 252-character complement. -/
theorem negated_class_mutates_tree :
    seqPrints negClassTree = true ∧
    seqAfter negClassTree ≠ negClassTree ∧
    generate (seqAfter negClassTree) 3 = Except.ok [[97]] ∧
    generate (seqAfter negClassTree) 3 ≠ generate negClassTree 3 := by
  refine ⟨rfl, ?_, rfl, ?_⟩
  · intro h
    injection h with h1 _
    injection h1 with h3
    injection h3 with h4 _
    exact SreNode.noConfusion h4
  · intro h
    have h2 : (generate negClassTree 3).map List.length = Except.ok 252 := rfl
    rw [← h] at h2
    have h3 : (Except.ok 1 : Except String Nat) = Except.ok 252 := h2
    injection h3 with h4
    exact absurd h4 (by decide)

/-! Shape of the cartesian product of identical repeat slots. -/

theorem mem_product_replicate (S : MatchSet) :
    ∀ (k : Nat) (t : List Str), t ∈ product (List.replicate k S) →
      t.length = k ∧ ∀ x ∈ t, x ∈ S := by
  intro k
  induction k with
  | zero =>
      intro t ht
      simp only [List.replicate_zero, product, List.mem_singleton] at ht
      subst ht
      simp
  | succ m ih =>
      intro t ht
      rw [List.replicate_succ] at ht
      simp only [product] at ht
      rw [List.mem_flatMap] at ht
      obtain ⟨x, hx, ht⟩ := ht
      rw [List.mem_map] at ht
      obtain ⟨u, hu, rfl⟩ := ht
      obtain ⟨hlen, helem⟩ := ih u hu
      refine ⟨by simp [hlen], ?_⟩
      intro y hy
      rcases List.mem_cons.mp hy with rfl | hy
      · exact hx
      · exact helem y hy

theorem replicate_mem_product (S : MatchSet) (s : Str) (hs : s ∈ S) :
    ∀ k : Nat, List.replicate k s ∈ product (List.replicate k S) := by
  intro k
  induction k with
  | zero => simp [product]
  | succ m ih =>
      rw [List.replicate_succ, List.replicate_succ]
      simp only [product]
      rw [List.mem_flatMap]
      exact ⟨s, hs, List.mem_map.mpr ⟨_, ih, rfl⟩⟩

theorem flatten_length_le (t : List Str) (h : ∀ x ∈ t, x.length ≤ 1) :
    t.flatten.length ≤ t.length := by
  induction t with
  | nil => simp
  | cons x rest ih =>
      simp only [List.flatten_cons, List.length_append, List.length_cons]
      have h1 := h x (List.mem_cons_self x rest)
      have h2 := ih (fun y hy => h y (List.mem_cons_of_mem x hy))
      omega

theorem flatten_replicate_singleton (a : Nat) :
    ∀ k : Nat, (List.replicate k ([a] : Str)).flatten = List.replicate k a := by
  intro k
  induction k with
  | zero => rfl
  | succ m ih => simp [List.replicate_succ, ih]

/-- C2: for a pattern `a{0,N}` enumerated with a repeat bound `B < N`,
every yielded string has length at most `min N B` and the longest yielded
string has length exactly `min N B`; concretely `a{0,5}` at bound 3 yields
exactly the empty string, `a`, `aa`, `aaa`. -/
theorem bound_respected :
    (∀ N B, B < N →
      ∃ l, generate (aRepeatTree 0 N) B = Except.ok l ∧
        (∀ s ∈ l, s.length ≤ min N B) ∧ ∃ s ∈ l, s.length = min N B) ∧
    generate (aRepeatTree 0 5) 3 =
      Except.ok [[], [97], [97, 97], [97, 97, 97]] := by
  constructor
  · intro N B hBN
    have hminBN : min B N = B := Nat.min_eq_left (le_of_lt hBN)
    have hminNB : min N B = B := Nat.min_eq_right (le_of_lt hBN)
    have e1 : generate (aRepeatTree 0 N) B =
        Except.ok (dedup []
          ((product (List.replicate (min B N) (EMPTY :: [[97]]) ++ [])).map
            List.flatten)) := rfl
    rw [hminBN, List.append_nil] at e1
    refine ⟨_, e1, ?_, ?_⟩
    · intro s hs
      obtain ⟨hs, -⟩ := (mem_dedup s _ []).mp hs
      obtain ⟨t, ht, rfl⟩ := List.mem_map.mp hs
      obtain ⟨hlen, helem⟩ := mem_product_replicate _ B t ht
      have hle : t.flatten.length ≤ t.length := by
        refine flatten_length_le t (fun x hx => ?_)
        rcases List.mem_cons.mp (helem x hx) with h1 | h1
        · rw [h1]
          simp [EMPTY]
        · have hx2 := List.mem_singleton.mp h1
          rw [hx2]
          simp
      rw [hminNB]
      omega
    · refine ⟨List.replicate B 97, ?_, by rw [hminNB]; simp⟩
      rw [mem_dedup]
      refine ⟨List.mem_map.mpr ⟨List.replicate B [97], ?_, flatten_replicate_singleton 97 B⟩,
        List.not_mem_nil _⟩
      exact replicate_mem_product _ [97] (by simp [EMPTY]) B
  · rfl

theorem bound_respected_witness :
    3 < 5 ∧
    ∃ l, generate (aRepeatTree 0 5) 3 = Except.ok l ∧
      (∀ s ∈ l, s.length ≤ min 5 3) ∧ ∃ s ∈ l, s.length = min 5 3 :=
  ⟨by decide, bound_respected.1 5 3 (by decide)⟩

/-- C7: the fixed category tables are: digit, the characters `0` through
`9`; space, the standard ASCII whitespace characters; word, the ASCII
letters (upper and lower case only); and each negated category is the
complement of its table against the configured alphabet `ALL`; the
pattern `\d` under the default alphabet yields exactly the ten strings
`0` through `9`. -/
theorem category_tables :
    CATEGORIES "category_digit" =
      some [48, 49, 50, 51, 52, 53, 54, 55, 56, 57] ∧
    CATEGORIES "category_space" = some [9, 10, 11, 12, 13, 32] ∧
    (∃ t, CATEGORIES "category_word" = some t ∧
      ∀ c, c ∈ t ↔ (65 ≤ c ∧ c ≤ 90) ∨ (97 ≤ c ∧ c ≤ 122)) ∧
    (∃ t, CATEGORIES "category_not_digit" = some t ∧
      ∀ c, c ∈ t ↔ c ∈ ALL ∧ c ∉ string_digits) ∧
    (∃ t, CATEGORIES "category_not_space" = some t ∧
      ∀ c, c ∈ t ↔ c ∈ ALL ∧ c ∉ string_whitespace) ∧
    (∃ t, CATEGORIES "category_not_word" = some t ∧
      ∀ c, c ∈ t ↔ c ∈ ALL ∧ c ∉ string_ascii_letters) ∧
    generate digitClassTree MAXREPEAT =
      Except.ok [[48], [49], [50], [51], [52], [53], [54], [55], [56], [57]] := by
  refine ⟨rfl, rfl, ⟨string_ascii_letters, rfl, fun c => ?_⟩,
    ⟨_, rfl, fun c => ?_⟩, ⟨_, rfl, fun c => ?_⟩, ⟨_, rfl, fun c => ?_⟩, rfl⟩
  · simp only [string_ascii_letters, List.mem_append, List.mem_range'_1]
    omega
  · simp [List.mem_filter]
  · simp [List.mem_filter]
  · simp [List.mem_filter]
